import Mathlib

/-!
Verification of the Connect-4 game engine (`src/main.rs`) against its
natural-language specification.

The source is shallowly embedded: the board `[[u8; 7]; 6]` becomes a
function `Nat → Nat → Nat` (out-of-bounds cells are never written and
stay `0`); the `&mut self` methods become functions returning the new
state; `play_move`'s `Result<(), MoveError>` becomes the second
component of a pair `(Game × Option MoveError)` where the first
component is the state after the call (errors return early in the
source, before any mutation, so they leave the state unchanged);
the `u8` move counter becomes a `Nat` reduced `% 256` on increment.
-/

namespace Connect4

/-- `BOARD_WIDTH`. -/
def BOARD_WIDTH : Nat := 7

/-- `BOARD_HEIGHT`. -/
def BOARD_HEIGHT : Nat := 6

/-- `type Board = [[u8; BOARD_WIDTH]; BOARD_HEIGHT]`, embedded as a
total function `row → col → u8-value`; indices used by the code are
always inside `[0,6) × [0,7)` and all other points stay `0`. -/
def Board : Type := Nat → Nat → Nat

/-- `enum Player { One = 1, Two = 2, None = 0 }`. -/
inductive Player where
  | one
  | two
  | none
  deriving DecidableEq, Repr

/-- The `repr(u8)` value of a `Player` (`Player as u8`). -/
def Player.toNat : Player → Nat
  | .one => 1
  | .two => 2
  | .none => 0

/-- `Player::from_int`. -/
def Player.from_int (int : Nat) : Player :=
  match int with
  | 1 => Player.one
  | 2 => Player.two
  | _ => Player.none

/-- `enum MoveError`. -/
inductive MoveError where
  | GameFinished
  | InvalidColumn
  | ColumnFull
  deriving DecidableEq, Repr

/-- `struct Game`. -/
structure Game where
  current_move : Nat
  current_player : Player
  board : Board
  is_finished : Bool
  winner : Player

/-- `Game::default()`: empty board, move 0, player One, not finished. -/
def Game.default : Game where
  current_move := 0
  current_player := Player.one
  board := fun _ _ => 0
  is_finished := false
  winner := Player.none

/-- The four direction vectors `(row_step, col_step)` of
`calculate_winner`, in source order. -/
def directions : List (Int × Int) :=
  [(0, 1), (1, 0), (1, 1), (-1, 1)]

/-- The bounds test of the `while` loop in `calculate_winner`:
`r >= 0 && r < BOARD_HEIGHT && c >= 0 && c < BOARD_WIDTH`. -/
def inB (r c : Int) : Prop :=
  0 ≤ r ∧ r < 6 ∧ 0 ≤ c ∧ c < 7

instance (r c : Int) : Decidable (inB r c) := by
  unfold inB; infer_instance

/-- Read `board[r][c]` at `isize` coordinates (only ever used under an
`inB` guard, mirroring the source's bound-checked loop). -/
def cellAt (b : Board) (r c : Int) : Nat := b r.toNat c.toNat

/-- The inner `while` loop of `calculate_winner`: walk from `(r, c)` in
direction `(dr, dc)` carrying `consecutive_count = count`, returning
`true` iff the count reaches 4.  The loop body runs at most three more
times once `count = 1` (each continuing iteration increments the count
and it returns at 4), so structural fuel `3` is exact for the initial
call. -/
def walkWin (b : Board) (cell : Nat) (dr dc : Int) :
    Nat → Int → Int → Nat → Bool
  | 0, _, _, _ => false
  | fuel + 1, r, c, count =>
    if inB r c then
      if cellAt b r c = cell then
        if count + 1 = 4 then true
        else walkWin b cell dr dc fuel (r + dr) (c + dc) (count + 1)
      else false
    else false

/-- The full-board scan of `calculate_winner` (lines 121-159): for each
cell in row-major order, if it is occupied, try the four directions;
the first direction whose walk reaches a count of 4 makes the function
return that cell's value.  `List.findSome?` models the early `return`. -/
def scanWinner (b : Board) : Option Nat :=
  (List.range 6).findSome? fun row =>
    (List.range 7).findSome? fun col =>
      if b row col ≠ 0 then
        directions.findSome? fun d =>
          if walkWin b (b row col) d.1 d.2 3 ((row : Int) + d.1) ((col : Int) + d.2) 1
          then some (b row col) else none
      else none

/-- `Game::calculate_winner` (`&mut self`, returns `Player`): embedded
as `Game → Game × Player`; the mutation is the `is_finished` flag it may
set (on a found win, or on a full board). -/
def Game.calculate_winner (g : Game) : Game × Player :=
  if g.current_move < 7 then (g, Player.none)
  else
    match scanWinner g.board with
    | some cell => ({ g with is_finished := true }, Player.from_int cell)
    | none =>
      if 42 ≤ g.current_move then ({ g with is_finished := true }, Player.none)
      else (g, Player.none)

/-- Write `board[row][column] = v`. -/
def updateB (b : Board) (row column v : Nat) : Board :=
  fun r c => if r = row ∧ c = column then v else b r c

/-- The row search of `play_move`:
`(0..BOARD_HEIGHT).rev().find(|&row| board[row][column] == 0)`. -/
def findRow (b : Board) (column : Nat) : Option Nat :=
  (List.range 6).reverse.find? fun row => b row column == 0

/-- The toggle `match self.current_player { One => Two, _ => One }`
from the success path of `play_move`. -/
def Player.other : Player → Player
  | Player.one => Player.two
  | _ => Player.one

/-- `Game::play_move`: embedded as `Game → Nat → Game × Option MoveError`
(state after the call, and the error if any; the source returns early on
every error path before mutating anything). -/
def Game.play_move (g : Game) (column : Nat) : Game × Option MoveError :=
  if g.is_finished then (g, some MoveError.GameFinished)
  else if 7 ≤ column then (g, some MoveError.InvalidColumn)
  else
    match findRow g.board column with
    | Option.none => (g, some MoveError.ColumnFull)
    | some row =>
      let g1 : Game :=
        { g with
          board := updateB g.board row column g.current_player.toNat
          current_move := (g.current_move + 1) % 256 }
      let res := g1.calculate_winner
      if res.2 ≠ Player.none then
        ({ res.1 with winner := res.2 }, Option.none)
      else
        ({ res.1 with current_player := res.1.current_player.other }, Option.none)

/-- Fold a list of column choices through `play_move`, keeping the state
(the caller in `main` keeps playing on the same `Game` value). -/
def playSeq (g : Game) (cs : List Nat) : Game :=
  cs.foldl (fun s c => (s.play_move c).1) g

/-- A game run from the initial state. -/
def runGame (cs : List Nat) : Game := playSeq Game.default cs

/-- All moves of the list succeed, in order, from `g`. -/
def playsOk : Game → List Nat → Bool
  | _, [] => true
  | g, c :: cs => (g.play_move c).2 == Option.none && playsOk (g.play_move c).1 cs

/-- States reachable from the initial state through `play_move` calls
(failed calls leave the state unchanged, so including them is harmless). -/
inductive Reachable : Game → Prop where
  | base : Reachable Game.default
  | step {g : Game} (c : Nat) : Reachable g → Reachable (g.play_move c).1

/-- A run of four same-owner cells anchored at `(r, c)` along direction
`(dr, dc)`: the four cells at offsets `0,1,2,3` are all in bounds and
all hold the nonzero value `v`. -/
def fourFrom (b : Board) (v : Nat) (r c dr dc : Int) : Prop :=
  v ≠ 0 ∧ ∀ i : Fin 4,
    inB (r + i.val * dr) (c + i.val * dc) ∧
    cellAt b (r + i.val * dr) (c + i.val * dc) = v

instance (b : Board) (v : Nat) (r c dr dc : Int) : Decidable (fourFrom b v r c dr dc) := by
  unfold fourFrom; infer_instance

/-- Player `p` owns four contiguous cells along one of the four
directions scanned by `calculate_winner`. -/
def hasFourP (b : Board) (p : Player) : Prop :=
  ∃ d ∈ directions, ∃ r c : Int, fourFrom b p.toNat r c d.1 d.2

/- ### Generic search lemmas -/

theorem find?_revRange_some {p : Nat → Bool} :
    ∀ {n row : Nat}, (List.range n).reverse.find? p = some row →
      row < n ∧ p row = true ∧ ∀ r', row < r' → r' < n → p r' = false := by
  intro n
  induction n with
  | zero => intro row h; simp at h
  | succ n ih =>
    intro row h
    rw [List.range_succ, List.reverse_append] at h
    simp only [List.reverse_cons, List.reverse_nil, List.nil_append,
      List.singleton_append] at h
    by_cases hn : p n = true
    · rw [List.find?_cons_of_pos _ hn] at h
      cases h
      exact ⟨Nat.lt_succ_self n, hn, fun r' h1 h2 => absurd h2 (by omega)⟩
    · rw [List.find?_cons_of_neg _ (by simpa using hn)] at h
      obtain ⟨h1, h2, h3⟩ := ih h
      refine ⟨Nat.lt_succ_of_lt h1, h2, fun r' hl hr => ?_⟩
      rcases Nat.lt_succ_iff_lt_or_eq.mp hr with hr' | hr'
      · exact h3 r' hl hr'
      · subst hr'; simpa using hn

theorem find?_revRange_none {p : Nat → Bool} {n : Nat}
    (h : (List.range n).reverse.find? p = Option.none) :
    ∀ r, r < n → p r = false := by
  intro r hr
  rw [List.find?_eq_none] at h
  simpa using h r (by simpa [List.mem_reverse] using List.mem_range.mpr hr)

/-- Characterization of the row search: a found row is in bounds and
empty, and every row strictly below it (larger index) is occupied. -/
theorem findRow_some {b : Board} {col row : Nat} (h : findRow b col = some row) :
    row < 6 ∧ b row col = 0 ∧ ∀ r', row < r' → r' < 6 → b r' col ≠ 0 := by
  obtain ⟨h1, h2, h3⟩ := find?_revRange_some h
  refine ⟨h1, by simpa using h2, fun r' hl hr => ?_⟩
  have := h3 r' hl hr
  simpa using this

/-- If the row search fails, every cell of the column is occupied. -/
theorem findRow_none {b : Board} {col : Nat} (h : findRow b col = Option.none) :
    ∀ r, r < 6 → b r col ≠ 0 := by
  intro r hr
  have := find?_revRange_none h r hr
  simpa using this

/-- If the column has an empty cell, the row search succeeds. -/
theorem findRow_isSome {b : Board} {col row : Nat} (hr : row < 6)
    (h0 : b row col = 0) : findRow b col ≠ Option.none := by
  intro hN
  exact findRow_none hN row hr h0

/- ### The inner walk, unfolded -/

theorem walkWin_c1 (b : Board) (v : Nat) (dr dc r c : Int) :
    walkWin b v dr dc 3 r c 1 =
      if inB r c ∧ cellAt b r c = v then walkWin b v dr dc 2 (r + dr) (c + dc) 2
      else false := by
  show walkWin b v dr dc (2+1) r c 1 = _
  rw [walkWin]
  split_ifs <;> first | rfl | omega | simp_all

theorem walkWin_c2 (b : Board) (v : Nat) (dr dc r c : Int) :
    walkWin b v dr dc 2 r c 2 =
      if inB r c ∧ cellAt b r c = v then walkWin b v dr dc 1 (r + dr) (c + dc) 3
      else false := by
  show walkWin b v dr dc (1+1) r c 2 = _
  rw [walkWin]
  split_ifs <;> first | rfl | omega | simp_all

theorem walkWin_c3 (b : Board) (v : Nat) (dr dc r c : Int) :
    walkWin b v dr dc 1 r c 3 =
      if inB r c ∧ cellAt b r c = v then true else false := by
  show walkWin b v dr dc (0+1) r c 3 = _
  rw [walkWin]
  split_ifs <;> first | rfl | omega | simp_all

/-- The walk launched by the scan from an occupied origin reaches a
count of 4 exactly when the three cells at offsets 1, 2, 3 from the
origin are in bounds and match. -/
theorem walkWin_start_iff (b : Board) (v : Nat) (dr dc r c : Int) :
    walkWin b v dr dc 3 r c 1 = true ↔
      (inB r c ∧ cellAt b r c = v) ∧
      (inB (r + dr) (c + dc) ∧ cellAt b (r + dr) (c + dc) = v) ∧
      (inB (r + dr + dr) (c + dc + dc) ∧ cellAt b (r + dr + dr) (c + dc + dc) = v) := by
  rw [walkWin_c1, walkWin_c2, walkWin_c3]
  split_ifs <;> tauto

theorem fourFrom_intro {b : Board} {v : Nat} {r c dr dc : Int}
    (hv : v ≠ 0)
    (h0 : inB r c ∧ cellAt b r c = v)
    (h1 : inB (r + dr) (c + dc) ∧ cellAt b (r + dr) (c + dc) = v)
    (h2 : inB (r + dr + dr) (c + dc + dc) ∧ cellAt b (r + dr + dr) (c + dc + dc) = v)
    (h3 : inB (r + dr + dr + dr) (c + dc + dc + dc) ∧
      cellAt b (r + dr + dr + dr) (c + dc + dc + dc) = v) :
    fourFrom b v r c dr dc := by
  refine ⟨hv, fun i => ?_⟩
  have e2r : r + 2 * dr = r + dr + dr := by ring
  have e2c : c + 2 * dc = c + dc + dc := by ring
  have e3r : r + 3 * dr = r + dr + dr + dr := by ring
  have e3c : c + 3 * dc = c + dc + dc + dc := by ring
  fin_cases i
  · simpa using h0
  · simpa using h1
  · simpa [e2r, e2c] using h2
  · simpa [e3r, e3c] using h3

theorem fourFrom_elim {b : Board} {v : Nat} {r c dr dc : Int}
    (h : fourFrom b v r c dr dc) :
    (inB r c ∧ cellAt b r c = v) ∧
    (inB (r + dr) (c + dc) ∧ cellAt b (r + dr) (c + dc) = v) ∧
    (inB (r + dr + dr) (c + dc + dc) ∧ cellAt b (r + dr + dr) (c + dc + dc) = v) ∧
    (inB (r + dr + dr + dr) (c + dc + dc + dc) ∧
      cellAt b (r + dr + dr + dr) (c + dc + dc + dc) = v) := by
  have e2r : r + 2 * dr = r + dr + dr := by ring
  have e2c : c + 2 * dc = c + dc + dc := by ring
  have e3r : r + 3 * dr = r + dr + dr + dr := by ring
  have e3c : c + 3 * dc = c + dc + dc + dc := by ring
  refine ⟨?_, ?_, ?_, ?_⟩
  · simpa using h.2 ⟨0, by omega⟩
  · simpa using h.2 ⟨1, by omega⟩
  · simpa [e2r, e2c] using h.2 ⟨2, by omega⟩
  · simpa [e3r, e3c] using h.2 ⟨3, by omega⟩

/-- Soundness of the full-board scan: a returned value is nonzero and
owns a four-in-a-row along one of the scanned directions. -/
theorem scanWinner_sound {b : Board} {w : Nat} (h : scanWinner b = some w) :
    w ≠ 0 ∧ ∃ d ∈ directions, ∃ r c : Int, fourFrom b w r c d.1 d.2 := by
  unfold scanWinner at h
  obtain ⟨row, hrow, h⟩ := List.exists_of_findSome?_eq_some h
  obtain ⟨col, hcol, h⟩ := List.exists_of_findSome?_eq_some h
  rw [List.mem_range] at hrow hcol
  by_cases hz : b row col ≠ 0
  · rw [if_pos hz] at h
    obtain ⟨d, hd, h⟩ := List.exists_of_findSome?_eq_some h
    by_cases hw : walkWin b (b row col) d.1 d.2 3 ((row : Int) + d.1) ((col : Int) + d.2) 1 = true
    · rw [if_pos hw] at h
      cases h
      rw [walkWin_start_iff] at hw
      refine ⟨hz, d, hd, (row : Int), (col : Int), fourFrom_intro hz ⟨?_, ?_⟩ hw.1 hw.2.1 hw.2.2⟩
      · unfold inB; omega
      · simp [cellAt]
    · rw [if_neg hw] at h
      cases h
  · rw [if_neg hz] at h
    cases h

/-- Completeness of the scan: if some four-in-a-row exists, the scan
does not return `none` (the single positive-direction walk from every
occupied cell finds every run from its anchor). -/
theorem scanWinner_complete {b : Board} {v : Nat} {r c dr dc : Int}
    (hd : (dr, dc) ∈ directions) (h : fourFrom b v r c dr dc) :
    scanWinner b ≠ Option.none := by
  intro hnone
  obtain ⟨⟨hB0, hC0⟩, s1, s2, s3⟩ := fourFrom_elim h
  obtain ⟨hr0, hr6, hc0, hc7⟩ := hB0
  unfold scanWinner at hnone
  rw [List.findSome?_eq_none_iff] at hnone
  have hrmem : r.toNat ∈ List.range 6 := List.mem_range.mpr (by omega)
  have inner := hnone r.toNat hrmem
  rw [List.findSome?_eq_none_iff] at inner
  have hcmem : c.toNat ∈ List.range 7 := List.mem_range.mpr (by omega)
  have body := inner c.toNat hcmem
  have hre : ((r.toNat : Nat) : Int) = r := Int.toNat_of_nonneg hr0
  have hce : ((c.toNat : Nat) : Int) = c := Int.toNat_of_nonneg hc0
  have hcell : b r.toNat c.toNat = v := hC0
  rw [if_pos (by rw [hcell]; exact h.1)] at body
  rw [List.findSome?_eq_none_iff] at body
  have hw := body (dr, dc) hd
  rw [hcell, hre, hce] at hw
  rw [if_pos ((walkWin_start_iff b v dr dc (r + dr) (c + dc)).mpr ⟨s1, ?_, ?_⟩)] at hw
  · cases hw
  · exact s2
  · exact s3

end Connect4

namespace Connect4

/- ### Counting cells -/

/-- Number of cells of the in-bounds grid holding value `v`. -/
def countOf (b : Board) (v : Nat) : Nat :=
  Finset.sum (Finset.range 6) fun r =>
    Finset.sum (Finset.range 7) fun c => if b r c = v then 1 else 0

/-- Number of occupied cells of the in-bounds grid. -/
def tokenCount (b : Board) : Nat :=
  Finset.sum (Finset.range 6) fun r =>
    Finset.sum (Finset.range 7) fun c => if b r c = 0 then 0 else 1

theorem sum_grid_update (F G : Nat → Nat → Nat) {r0 c0 : Nat} (hr : r0 < 6) (hc : c0 < 7)
    (hsame : ∀ r c, ¬(r = r0 ∧ c = c0) → F r c = G r c) :
    ((Finset.sum (Finset.range 6) fun r => Finset.sum (Finset.range 7) fun c => F r c)
      + G r0 c0) =
    ((Finset.sum (Finset.range 6) fun r => Finset.sum (Finset.range 7) fun c => G r c)
      + F r0 c0) := by
  have hrm : r0 ∈ Finset.range 6 := Finset.mem_range.mpr hr
  have hcm : c0 ∈ Finset.range 7 := Finset.mem_range.mpr hc
  have hrow : ∀ r ∈ (Finset.range 6).erase r0,
      (Finset.sum (Finset.range 7) fun c => F r c) =
      Finset.sum (Finset.range 7) fun c => G r c := by
    intro r hr'
    refine Finset.sum_congr rfl fun c _ => hsame r c ?_
    have := (Finset.mem_erase.mp hr').1
    tauto
  have hcol : ∀ c ∈ (Finset.range 7).erase c0, F r0 c = G r0 c := by
    intro c hc'
    refine hsame r0 c ?_
    have := (Finset.mem_erase.mp hc').1
    tauto
  have eF : (Finset.sum (Finset.range 6) fun r => Finset.sum (Finset.range 7) fun c => F r c) =
      (Finset.sum ((Finset.range 6).erase r0) fun r => Finset.sum (Finset.range 7) fun c => G r c)
        + ((Finset.sum ((Finset.range 7).erase c0) fun c => G r0 c) + F r0 c0) := by
    rw [← Finset.sum_erase_add _ _ hrm, Finset.sum_congr rfl hrow,
      ← Finset.sum_erase_add _ _ hcm, Finset.sum_congr rfl hcol]
  have eG : (Finset.sum (Finset.range 6) fun r => Finset.sum (Finset.range 7) fun c => G r c) =
      (Finset.sum ((Finset.range 6).erase r0) fun r => Finset.sum (Finset.range 7) fun c => G r c)
        + ((Finset.sum ((Finset.range 7).erase c0) fun c => G r0 c) + G r0 c0) := by
    rw [← Finset.sum_erase_add _ _ hrm, ← Finset.sum_erase_add _ _ hcm]
  omega

theorem updateB_self {b : Board} {r0 c0 v : Nat} : updateB b r0 c0 v r0 c0 = v := by
  simp [updateB]

theorem updateB_other {b : Board} {r0 c0 v r c : Nat} (h : ¬(r = r0 ∧ c = c0)) :
    updateB b r0 c0 v r c = b r c := by
  simp only [updateB, if_neg h]

theorem countOf_update_self {b : Board} {r0 c0 v : Nat} (hr : r0 < 6) (hc : c0 < 7)
    (h0 : b r0 c0 = 0) (hv : v ≠ 0) :
    countOf (updateB b r0 c0 v) v = countOf b v + 1 := by
  have key := sum_grid_update (fun r c => if updateB b r0 c0 v r c = v then 1 else 0)
    (fun r c => if b r c = v then 1 else 0) hr hc
    (fun r c hne => by simp only [updateB_other hne])
  beta_reduce at key
  rw [updateB_self, h0] at key
  rw [if_pos rfl, if_neg (by omega : ¬(0 = v))] at key
  unfold countOf
  omega

theorem countOf_update_other {b : Board} {r0 c0 v w : Nat} (hr : r0 < 6) (hc : c0 < 7)
    (h0 : b r0 c0 = 0) (hw : w ≠ 0) (hvw : v ≠ w) :
    countOf (updateB b r0 c0 v) w = countOf b w := by
  have key := sum_grid_update (fun r c => if updateB b r0 c0 v r c = w then 1 else 0)
    (fun r c => if b r c = w then 1 else 0) hr hc
    (fun r c hne => by simp only [updateB_other hne])
  beta_reduce at key
  rw [updateB_self, h0] at key
  rw [if_neg (by omega : ¬(0 = w)), if_neg hvw] at key
  unfold countOf
  omega

theorem tokenCount_update {b : Board} {r0 c0 v : Nat} (hr : r0 < 6) (hc : c0 < 7)
    (h0 : b r0 c0 = 0) (hv : v ≠ 0) :
    tokenCount (updateB b r0 c0 v) = tokenCount b + 1 := by
  have key := sum_grid_update (fun r c => if updateB b r0 c0 v r c = 0 then 0 else 1)
    (fun r c => if b r c = 0 then 0 else 1) hr hc
    (fun r c hne => by simp only [updateB_other hne])
  beta_reduce at key
  rw [updateB_self, h0] at key
  rw [if_pos rfl, if_neg hv] at key
  unfold tokenCount
  omega

/-- `countOf` as the cardinality of the set of cells holding `v`. -/
theorem countOf_eq_card (b : Board) (v : Nat) :
    countOf b v =
      (((Finset.range 6) ×ˢ (Finset.range 7)).filter fun p => b p.1 p.2 = v).card := by
  rw [Finset.card_filter, Finset.sum_product]
  rfl

/-- A four-in-a-row of value `v` forces at least four cells holding `v`. -/
theorem le_countOf_of_fourFrom {b : Board} {v : Nat} {r c dr dc : Int}
    (hd : (dr, dc) ∈ directions) (h : fourFrom b v r c dr dc) :
    4 ≤ countOf b v := by
  classical
  have hB : ∀ i : Fin 4, inB (r + i.val * dr) (c + i.val * dc) := fun i => (h.2 i).1
  have hV : ∀ i : Fin 4, b (r + i.val * dr).toNat (c + i.val * dc).toNat = v :=
    fun i => (h.2 i).2
  have hmem : ∀ i : Fin 4,
      ((r + i.val * dr).toNat, (c + i.val * dc).toNat) ∈
        ((Finset.range 6) ×ˢ (Finset.range 7)).filter fun p => b p.1 p.2 = v := by
    intro i
    have hb := hB i
    unfold inB at hb
    refine Finset.mem_filter.mpr ⟨Finset.mem_product.mpr ⟨?_, ?_⟩, hV i⟩
    · exact Finset.mem_range.mpr (by omega)
    · exact Finset.mem_range.mpr (by omega)
  have hinj : Function.Injective
      (fun i : Fin 4 => ((r + i.val * dr).toNat, (c + i.val * dc).toNat)) := by
    intro i j he
    have hbi := hB i; have hbj := hB j
    unfold inB at hbi hbj
    have h1 := congrArg Prod.fst he
    have h2 := congrArg Prod.snd he
    simp only at h1 h2
    simp only [directions, List.mem_cons, List.not_mem_nil, or_false,
      Prod.mk.injEq] at hd
    refine Fin.ext ?_
    rcases hd with ⟨e1, e2⟩ | ⟨e1, e2⟩ | ⟨e1, e2⟩ | ⟨e1, e2⟩ <;> (subst e1; subst e2; omega)
  have hsub : Finset.image
      (fun i : Fin 4 => ((r + i.val * dr).toNat, (c + i.val * dc).toNat)) Finset.univ ⊆
      ((Finset.range 6) ×ˢ (Finset.range 7)).filter fun p => b p.1 p.2 = v := by
    intro p hp
    obtain ⟨i, _, hi⟩ := Finset.mem_image.mp hp
    exact hi ▸ hmem i
  have hcard : (Finset.image
      (fun i : Fin 4 => ((r + i.val * dr).toNat, (c + i.val * dc).toNat)) Finset.univ).card = 4 := by
    rw [Finset.card_image_of_injective _ hinj, Finset.card_univ, Fintype.card_fin]
  rw [countOf_eq_card]
  calc 4 = _ := hcard.symm
    _ ≤ _ := Finset.card_le_card hsub

end Connect4
namespace Connect4

/- ### Path equations for `play_move` and `calculate_winner` -/

theorem play_move_finished {g : Game} (col : Nat) (h : g.is_finished = true) :
    g.play_move col = (g, some MoveError.GameFinished) := by
  simp [Game.play_move, h]

theorem play_move_invalid {g : Game} {col : Nat} (h1 : g.is_finished = false)
    (h2 : 7 ≤ col) : g.play_move col = (g, some MoveError.InvalidColumn) := by
  simp [Game.play_move, h1, h2]

theorem play_move_colfull {g : Game} {col : Nat} (h1 : g.is_finished = false)
    (h2 : col < 7) (h3 : findRow g.board col = Option.none) :
    g.play_move col = (g, some MoveError.ColumnFull) := by
  simp [Game.play_move, h1, h3, h2]

theorem calc_winner_skip {g : Game} (h : g.current_move < 7) :
    g.calculate_winner = (g, Player.none) := by
  rw [Game.calculate_winner, if_pos h]

theorem calc_winner_found {g : Game} {w : Nat} (h7 : 7 ≤ g.current_move)
    (hs : scanWinner g.board = some w) :
    g.calculate_winner = ({ g with is_finished := true }, Player.from_int w) := by
  rw [Game.calculate_winner, if_neg (by omega), hs]

theorem calc_winner_draw {g : Game} (h7 : 7 ≤ g.current_move)
    (hs : scanWinner g.board = Option.none) (h42 : 42 ≤ g.current_move) :
    g.calculate_winner = ({ g with is_finished := true }, Player.none) := by
  rw [Game.calculate_winner, if_neg (by omega), hs]
  exact if_pos h42

theorem calc_winner_quiet {g : Game} (h7 : 7 ≤ g.current_move)
    (hs : scanWinner g.board = Option.none) (h42 : g.current_move < 42) :
    g.calculate_winner = (g, Player.none) := by
  rw [Game.calculate_winner, if_neg (by omega), hs]
  exact if_neg (by omega)

/-- The intermediate state of a successful move: token written to the
found row, move counter incremented (as a `u8`). -/
def Game.afterPlace (g : Game) (row col : Nat) : Game :=
  { g with
    board := updateB g.board row col g.current_player.toNat
    current_move := (g.current_move + 1) % 256 }

/-- The success path of `play_move`, reduced to the intermediate state
(token written, counter bumped) and its win scan. -/
theorem play_move_success_eq {g : Game} {col row : Nat}
    (h1 : g.is_finished = false) (h2 : col < 7) (h3 : findRow g.board col = some row) :
    g.play_move col =
      (if ((g.afterPlace row col).calculate_winner).2 ≠ Player.none then
        ({ ((g.afterPlace row col).calculate_winner).1 with
            winner := ((g.afterPlace row col).calculate_winner).2 }, Option.none)
      else
        ({ ((g.afterPlace row col).calculate_winner).1 with
            current_player :=
              ((g.afterPlace row col).calculate_winner).1.current_player.other },
          Option.none)) := by
  rw [Game.play_move]
  rw [if_neg (by rw [h1]; exact Bool.false_ne_true), if_neg (by omega), h3]
  rfl

theorem afterPlace_board (g : Game) (row col : Nat) :
    (g.afterPlace row col).board = updateB g.board row col g.current_player.toNat := rfl

theorem afterPlace_move (g : Game) (row col : Nat) (hm : g.current_move + 1 < 256) :
    (g.afterPlace row col).current_move = g.current_move + 1 := Nat.mod_eq_of_lt hm

/-- A successful quiet move (no win found, board not full): token
placed, counter incremented, player toggled, game continues. -/
theorem play_move_quiet {g : Game} {col row : Nat}
    (h1 : g.is_finished = false) (h2 : col < 7) (h3 : findRow g.board col = some row)
    (hm : g.current_move + 1 < 256)
    (hq : g.current_move + 1 < 7 ∨
      (scanWinner (updateB g.board row col g.current_player.toNat) = Option.none ∧
        g.current_move + 1 < 42)) :
    g.play_move col =
      ({ g with
          board := updateB g.board row col g.current_player.toNat
          current_move := g.current_move + 1
          current_player := g.current_player.other }, Option.none) := by
  rw [play_move_success_eq h1 h2 h3]
  have hcm := afterPlace_move g row col hm
  have hcw : (g.afterPlace row col).calculate_winner = (g.afterPlace row col, Player.none) := by
    rcases hq with hq | ⟨hs, h42⟩
    · exact calc_winner_skip (by omega)
    · by_cases h7 : g.current_move + 1 < 7
      · exact calc_winner_skip (by omega)
      · exact calc_winner_quiet (by omega) (by rw [afterPlace_board]; exact hs) (by omega)
  rw [hcw]
  rw [if_neg (by simp)]
  show ({ g.afterPlace row col with
    current_player := (g.afterPlace row col).current_player.other }, Option.none) = _
  rw [Prod.mk.injEq]
  refine ⟨?_, rfl⟩
  show { g with
      board := updateB g.board row col g.current_player.toNat
      current_move := (g.current_move + 1) % 256
      current_player := g.current_player.other } = _
  rw [Nat.mod_eq_of_lt hm]

/-- A successful winning move: token placed, counter incremented, game
finished with the scanned winner, player NOT toggled. -/
theorem play_move_won {g : Game} {col row : Nat} {w : Nat}
    (h1 : g.is_finished = false) (h2 : col < 7) (h3 : findRow g.board col = some row)
    (hm : g.current_move + 1 < 256) (h7 : 7 ≤ g.current_move + 1)
    (hs : scanWinner (updateB g.board row col g.current_player.toNat) = some w)
    (hw : Player.from_int w ≠ Player.none) :
    g.play_move col =
      ({ g with
          board := updateB g.board row col g.current_player.toNat
          current_move := g.current_move + 1
          is_finished := true
          winner := Player.from_int w }, Option.none) := by
  rw [play_move_success_eq h1 h2 h3]
  have hcm := afterPlace_move g row col hm
  have hcw : (g.afterPlace row col).calculate_winner =
      ({ g.afterPlace row col with is_finished := true }, Player.from_int w) :=
    calc_winner_found (by omega) (by rw [afterPlace_board]; exact hs)
  rw [hcw]
  rw [if_pos (by simpa using hw)]
  rw [Prod.mk.injEq]
  refine ⟨?_, rfl⟩
  show { g with
      board := updateB g.board row col g.current_player.toNat
      current_move := (g.current_move + 1) % 256
      is_finished := true
      winner := Player.from_int w } = _
  rw [Nat.mod_eq_of_lt hm]

/-- A successful board-filling move with no winner: token placed,
counter incremented, game finished as a draw, player toggled. -/
theorem play_move_draw {g : Game} {col row : Nat}
    (h1 : g.is_finished = false) (h2 : col < 7) (h3 : findRow g.board col = some row)
    (hm : g.current_move + 1 < 256) (h42 : 42 ≤ g.current_move + 1)
    (hs : scanWinner (updateB g.board row col g.current_player.toNat) = Option.none) :
    g.play_move col =
      ({ g with
          board := updateB g.board row col g.current_player.toNat
          current_move := g.current_move + 1
          is_finished := true
          current_player := g.current_player.other }, Option.none) := by
  rw [play_move_success_eq h1 h2 h3]
  have hcm := afterPlace_move g row col hm
  have hcw : (g.afterPlace row col).calculate_winner =
      ({ g.afterPlace row col with is_finished := true }, Player.none) :=
    calc_winner_draw (by omega) (by rw [afterPlace_board]; exact hs) (by omega)
  rw [hcw]
  rw [if_neg (by simp)]
  rw [Prod.mk.injEq]
  refine ⟨?_, rfl⟩
  show { g with
      board := updateB g.board row col g.current_player.toNat
      current_move := (g.current_move + 1) % 256
      is_finished := true
      current_player := g.current_player.other } = _
  rw [Nat.mod_eq_of_lt hm]


end Connect4

namespace Connect4

/- ### Player value helpers -/

theorem Player.toNat_le (p : Player) : p.toNat ≤ 2 := by cases p <;> simp [Player.toNat]

theorem Player.toNat_ne_zero {p : Player} (h : p ≠ Player.none) : p.toNat ≠ 0 := by
  cases p <;> simp_all [Player.toNat]

theorem Player.from_int_toNat {p : Player} (h : p ≠ Player.none) :
    Player.from_int p.toNat = p := by
  cases p <;> simp_all [Player.toNat, Player.from_int]

theorem Player.toNat_inj {p q : Player} (h : p.toNat = q.toNat) : p = q := by
  cases p <;> cases q <;> simp_all [Player.toNat]

/- ### No four-in-a-row from small counts or a clean scan -/

theorem hasFourP_le_count {b : Board} {p : Player} (h : hasFourP b p) :
    4 ≤ countOf b p.toNat := by
  obtain ⟨d, hd, r, c, hf⟩ := h
  exact le_countOf_of_fourFrom (by simpa using hd) hf

theorem noFour_of_counts {b : Board} {p : Player}
    (h : countOf b p.toNat ≤ 3) : ¬ hasFourP b p := fun hf => by
  have := hasFourP_le_count hf
  omega

theorem noFour_of_scan_none {b : Board} (h : scanWinner b = Option.none) :
    ∀ p, ¬ hasFourP b p := by
  intro p hf
  obtain ⟨d, hd, r, c, hff⟩ := hf
  have hd' : (d.1, d.2) ∈ directions := by simpa using hd
  exact scanWinner_complete hd' hff h

/-- A four-in-a-row appearing after writing one token into an empty cell
of a board with no four-in-a-row must be owned by the written token. -/
theorem hasFourP_update {b : Board} {r0 c0 tok : Nat} (h0 : b r0 c0 = 0)
    (hnf : ∀ p, ¬ hasFourP b p) {q : Player}
    (h : hasFourP (updateB b r0 c0 tok) q) : q.toNat = tok := by
  by_contra hne
  obtain ⟨d, hd, r, c, hf⟩ := h
  apply hnf q
  refine ⟨d, hd, r, c, hf.1, fun i => ?_⟩
  obtain ⟨hBi, hVi⟩ := hf.2 i
  refine ⟨hBi, ?_⟩
  unfold cellAt at hVi ⊢
  by_cases hrc : (r + i.val * d.1).toNat = r0 ∧ (c + i.val * d.2).toNat = c0
  · exfalso
    rw [show updateB b r0 c0 tok (r + i.val * d.1).toNat (c + i.val * d.2).toNat = tok by
      simp [updateB, hrc]] at hVi
    exact hne hVi.symm
  · rw [updateB_other hrc] at hVi
    exact hVi

/-- The no-player value never owns a four-in-a-row (its token is 0). -/
theorem noFour_none (b : Board) : ¬ hasFourP b Player.none := by
  rintro ⟨d, hd, r, c, hf⟩
  exact hf.1 rfl

/-- A four-in-a-row of value `w` appearing after writing `tok` into an
empty cell of a clean board (no four for any player, values at most 2)
must have `w = tok`. -/
theorem fourFrom_update {b : Board} {r0 c0 tok : Nat} (h0 : b r0 c0 = 0)
    (hvals : ∀ r c, b r c ≤ 2) (hnf : ∀ p, ¬ hasFourP b p)
    {w : Nat} {r c dr dc : Int} (hd : (dr, dc) ∈ directions)
    (hff : fourFrom (updateB b r0 c0 tok) w r c dr dc) : w = tok := by
  by_contra hne
  have hold : fourFrom b w r c dr dc := by
    refine ⟨hff.1, fun i => ?_⟩
    obtain ⟨hBi, hVi⟩ := hff.2 i
    refine ⟨hBi, ?_⟩
    unfold cellAt at hVi ⊢
    by_cases hrc : (r + i.val * dr).toNat = r0 ∧ (c + i.val * dc).toNat = c0
    · exfalso
      rw [show updateB b r0 c0 tok (r + i.val * dr).toNat (c + i.val * dc).toNat = tok by
        simp [updateB, hrc]] at hVi
      exact hne hVi.symm
    · rw [updateB_other hrc] at hVi
      exact hVi
  have hw2 : w ≤ 2 := by
    have hc0 := (hold.2 ⟨0, by omega⟩).2
    unfold cellAt at hc0
    rw [← hc0]
    exact hvals _ _
  have hw0 : w ≠ 0 := hff.1
  have hwp : (Player.from_int w).toNat = w := by
    interval_cases w <;> rfl
  exact hnf (Player.from_int w) ⟨(dr, dc), hd, r, c, by rw [hwp]; exact hold⟩

/- ### The reachability invariant -/

/-- Master invariant of states reachable through `play_move`. -/
structure Inv (g : Game) : Prop where
  oob : ∀ r c, 6 ≤ r ∨ 7 ≤ c → g.board r c = 0
  vals : ∀ r c, g.board r c ≤ 2
  tcount : tokenCount g.board = g.current_move
  le42 : g.current_move ≤ 42
  grav : ∀ r r' c, r ≤ r' → r' < 6 → g.board r c ≠ 0 → g.board r' c ≠ 0
  cnt1 : countOf g.board 1 ≤ (g.current_move + 1) / 2
  cnt2 : countOf g.board 2 ≤ (g.current_move + 1) / 2
  live : g.is_finished = false →
    countOf g.board 1 = (g.current_move + 1) / 2 ∧
    countOf g.board 2 = g.current_move / 2 ∧
    (g.current_player = Player.one ↔ g.current_move % 2 = 0) ∧
    (g.current_player = Player.two ↔ g.current_move % 2 = 1) ∧
    g.winner = Player.none ∧
    g.current_move < 42 ∧
    ∀ p, ¬ hasFourP g.board p
  fin : g.is_finished = true →
    (g.winner = Player.none ∧ g.current_move = 42 ∧ ∀ p, ¬ hasFourP g.board p) ∨
    (∃ p, (p = Player.one ∨ p = Player.two) ∧ g.winner = p ∧ g.current_player = p ∧
      7 ≤ g.current_move ∧ hasFourP g.board p ∧ ∀ q, q ≠ p → ¬ hasFourP g.board q)

theorem countOf_zero_board (v : Nat) (hv : v ≠ 0) :
    countOf (fun _ _ => (0 : Nat)) v = 0 := by
  unfold countOf
  rw [Finset.sum_eq_zero]
  intro r _
  rw [Finset.sum_eq_zero]
  intro c _
  simp [hv, Ne.symm hv]

theorem Inv_default : Inv Game.default := by
  have hnf : ∀ p, ¬ hasFourP (Game.default).board p := by
    intro p hf
    obtain ⟨d, hd, r, c, hf⟩ := hf
    have := (hf.2 0).2
    simp [cellAt, Game.default] at this
    exact hf.1 this.symm
  refine ⟨?_, ?_, ?_, ?_, ?_, ?_, ?_, ?_, ?_⟩
  · intro r c _; rfl
  · intro r c; exact Nat.zero_le 2
  · simp [tokenCount, Game.default]
  · exact Nat.zero_le 42
  · intro r r' c _ _ h; exact absurd rfl h
  · simpa [Game.default] using Nat.le_of_eq (countOf_zero_board 1 (by omega))
  · simpa [Game.default] using Nat.le_of_eq (countOf_zero_board 2 (by omega))
  · intro _
    refine ⟨?_, ?_, ?_, ?_, rfl, by simp [Game.default], hnf⟩
    · simpa [Game.default] using countOf_zero_board 1 (by omega)
    · simpa [Game.default] using countOf_zero_board 2 (by omega)
    · simp [Game.default]
    · simp [Game.default]
  · intro h
    simp [Game.default] at h

end Connect4

namespace Connect4

/-- Effect of one placement on the per-player counts, given exact
counts and turn parity before the move. -/
theorem counts_after_move {b : Board} {row col m : Nat} {p : Player}
    (hrow6 : row < 6) (h2 : col < 7) (hempty : b row col = 0)
    (hpne : p ≠ Player.none)
    (hc1 : countOf b 1 = (m + 1) / 2) (hc2 : countOf b 2 = m / 2)
    (hpar1 : p = Player.one ↔ m % 2 = 0) (hpar2 : p = Player.two ↔ m % 2 = 1) :
    countOf (updateB b row col p.toNat) 1 = (m + 2) / 2 ∧
    countOf (updateB b row col p.toNat) 2 = (m + 1) / 2 := by
  cases p with
  | none => exact absurd rfl hpne
  | one =>
    have hm0 : m % 2 = 0 := hpar1.mp rfl
    constructor
    · have e1 : countOf (updateB b row col Player.one.toNat) 1 = countOf b 1 + 1 :=
        countOf_update_self hrow6 h2 hempty (by decide)
      rw [e1, hc1]
      omega
    · have e2 : countOf (updateB b row col Player.one.toNat) 2 = countOf b 2 :=
        countOf_update_other hrow6 h2 hempty (by omega) (by decide)
      rw [e2, hc2]
      omega
  | two =>
    have hm1 : m % 2 = 1 := hpar2.mp rfl
    constructor
    · have e1 : countOf (updateB b row col Player.two.toNat) 1 = countOf b 1 :=
        countOf_update_other hrow6 h2 hempty (by omega) (by decide)
      rw [e1, hc1]
      omega
    · have e2 : countOf (updateB b row col Player.two.toNat) 2 = countOf b 2 + 1 :=
        countOf_update_self hrow6 h2 hempty (by decide)
      rw [e2, hc2]
      omega

/-- `play_move` preserves the master invariant. -/
theorem Inv_step {g : Game} (hg : Inv g) (col : Nat) : Inv (g.play_move col).1 := by
  by_cases hfin : g.is_finished = true
  · rw [play_move_finished col hfin]; exact hg
  · have h1 : g.is_finished = false := by revert hfin; cases g.is_finished <;> simp
    by_cases hcol : 7 ≤ col
    · rw [play_move_invalid h1 hcol]; exact hg
    · have h2 : col < 7 := by omega
      cases hfr : findRow g.board col with
      | none => rw [play_move_colfull h1 h2 hfr]; exact hg
      | some row =>
        obtain ⟨hrow6, hempty, hbelow⟩ := findRow_some hfr
        obtain ⟨hc1, hc2, hpl1, hpl2, hwin, hm42, hnf⟩ := hg.live h1
        have hm : g.current_move + 1 < 256 := by omega
        have hpne : g.current_player ≠ Player.none := by
          intro he
          rcases Nat.mod_two_eq_zero_or_one g.current_move with hp | hp
          · have h := hpl1.mpr hp; rw [he] at h; cases h
          · have h := hpl2.mpr hp; rw [he] at h; cases h
        have htokne : g.current_player.toNat ≠ 0 := Player.toNat_ne_zero hpne
        have hoob' : ∀ r c, 6 ≤ r ∨ 7 ≤ c →
            updateB g.board row col g.current_player.toNat r c = 0 := by
          intro r c h
          rw [updateB_other (by rintro ⟨rfl, rfl⟩; omega)]
          exact hg.oob r c h
        have hvals' : ∀ r c, updateB g.board row col g.current_player.toNat r c ≤ 2 := by
          intro r c
          by_cases hrc : r = row ∧ c = col
          · obtain ⟨rfl, rfl⟩ := hrc
            rw [updateB_self]
            exact Player.toNat_le _
          · rw [updateB_other hrc]
            exact hg.vals r c
        have htc' : tokenCount (updateB g.board row col g.current_player.toNat)
            = g.current_move + 1 := by
          rw [tokenCount_update hrow6 h2 hempty htokne, hg.tcount]
        have hgrav' : ∀ r r' c, r ≤ r' → r' < 6 →
            updateB g.board row col g.current_player.toNat r c ≠ 0 →
            updateB g.board row col g.current_player.toNat r' c ≠ 0 := by
          intro r r' c hle hr6 hnz
          by_cases hr'c : r' = row ∧ c = col
          · obtain ⟨rfl, rfl⟩ := hr'c
            rw [updateB_self]
            exact htokne
          · rw [updateB_other hr'c]
            by_cases hrc : r = row ∧ c = col
            · obtain ⟨rfl, rfl⟩ := hrc
              have hner : r' ≠ r := fun h => hr'c ⟨h, rfl⟩
              exact hbelow r' (by omega) hr6
            · rw [updateB_other hrc] at hnz
              exact hg.grav r r' c hle hr6 hnz
        have hcounts' :
            countOf (updateB g.board row col g.current_player.toNat) 1 = (g.current_move + 2) / 2 ∧
            countOf (updateB g.board row col g.current_player.toNat) 2 = (g.current_move + 1) / 2 :=
          counts_after_move hrow6 h2 hempty hpne hc1 hc2 hpl1 hpl2
        have hfour' : ∀ q : Player, hasFourP (updateB g.board row col g.current_player.toNat) q →
            q = g.current_player :=
          fun q hq => Player.toNat_inj (hasFourP_update hempty hnf hq)
        have quiet_inv :
            (∀ p, ¬ hasFourP (updateB g.board row col g.current_player.toNat) p) →
            g.current_move + 1 < 42 →
            Inv ({ g with
              board := updateB g.board row col g.current_player.toNat
              current_move := g.current_move + 1
              current_player := g.current_player.other }) := by
          intro hnf' hlt
          refine ⟨hoob', hvals', htc', ?_, hgrav', ?_, ?_, ?_, ?_⟩
          · show g.current_move + 1 ≤ 42
            omega
          · show countOf (updateB g.board row col g.current_player.toNat) 1
              ≤ (g.current_move + 1 + 1) / 2
            rw [hcounts'.1]
          · show countOf (updateB g.board row col g.current_player.toNat) 2
              ≤ (g.current_move + 1 + 1) / 2
            rw [hcounts'.2]
            omega
          · intro _
            refine ⟨?_, ?_, ?_, ?_, hwin, hlt, hnf'⟩
            · show countOf (updateB g.board row col g.current_player.toNat) 1
                = (g.current_move + 1 + 1) / 2
              rw [hcounts'.1]
            · show countOf (updateB g.board row col g.current_player.toNat) 2
                = (g.current_move + 1) / 2
              rw [hcounts'.2]
            · show g.current_player.other = Player.one ↔ (g.current_move + 1) % 2 = 0
              rcases Nat.mod_two_eq_zero_or_one g.current_move with hp | hp
              · rw [hpl1.mpr hp]
                constructor
                · intro h
                  exact absurd h (by decide)
                · intro h
                  exact absurd h (by omega)
              · rw [hpl2.mpr hp]
                constructor
                · intro _
                  omega
                · intro _
                  decide
            · show g.current_player.other = Player.two ↔ (g.current_move + 1) % 2 = 1
              rcases Nat.mod_two_eq_zero_or_one g.current_move with hp | hp
              · rw [hpl1.mpr hp]
                constructor
                · intro _
                  omega
                · intro _
                  decide
              · rw [hpl2.mpr hp]
                constructor
                · intro h
                  exact absurd h (by decide)
                · intro h
                  exact absurd h (by omega)
          · intro hft
            have hgt : g.is_finished = true := hft
            rw [h1] at hgt
            exact Bool.noConfusion hgt
        by_cases h7 : g.current_move + 1 < 7
        · rw [play_move_quiet h1 h2 hfr hm (Or.inl h7)]
          refine quiet_inv ?_ (by omega)
          intro p
          cases p with
          | none => exact noFour_none _
          | one =>
            refine noFour_of_counts ?_
            show countOf (updateB g.board row col g.current_player.toNat) Player.one.toNat ≤ 3
            rw [show Player.one.toNat = 1 from rfl, hcounts'.1]
            omega
          | two =>
            refine noFour_of_counts ?_
            show countOf (updateB g.board row col g.current_player.toNat) Player.two.toNat ≤ 3
            rw [show Player.two.toNat = 2 from rfl, hcounts'.2]
            omega
        · cases hscan : scanWinner (updateB g.board row col g.current_player.toNat) with
          | none =>
            by_cases h42 : 42 ≤ g.current_move + 1
            · rw [play_move_draw h1 h2 hfr hm h42 hscan]
              refine ⟨hoob', hvals', htc', ?_, hgrav', ?_, ?_, ?_, ?_⟩
              · show g.current_move + 1 ≤ 42
                omega
              · show countOf (updateB g.board row col g.current_player.toNat) 1
                  ≤ (g.current_move + 1 + 1) / 2
                rw [hcounts'.1]
              · show countOf (updateB g.board row col g.current_player.toNat) 2
                  ≤ (g.current_move + 1 + 1) / 2
                rw [hcounts'.2]
                omega
              · intro hlf
                exact Bool.noConfusion hlf
              · intro _
                left
                refine ⟨hwin, ?_, noFour_of_scan_none hscan⟩
                show g.current_move + 1 = 42
                omega
            · rw [play_move_quiet h1 h2 hfr hm (Or.inr ⟨hscan, by omega⟩)]
              exact quiet_inv (noFour_of_scan_none hscan) (by omega)
          | some w =>
            have h7' : 7 ≤ g.current_move + 1 := by omega
            obtain ⟨hw0, d, hd, r, c, hff⟩ := scanWinner_sound hscan
            have hwtok : w = g.current_player.toNat := by
              refine fourFrom_update hempty hg.vals hnf ?_ hff
              simpa using hd
            have hfromint : Player.from_int w = g.current_player := by
              rw [hwtok]
              exact Player.from_int_toNat hpne
            have hfi : Player.from_int w ≠ Player.none := by
              rw [hfromint]
              exact hpne
            rw [play_move_won h1 h2 hfr hm h7' hscan hfi]
            refine ⟨hoob', hvals', htc', ?_, hgrav', ?_, ?_, ?_, ?_⟩
            · show g.current_move + 1 ≤ 42
              omega
            · show countOf (updateB g.board row col g.current_player.toNat) 1
                ≤ (g.current_move + 1 + 1) / 2
              rw [hcounts'.1]
            · show countOf (updateB g.board row col g.current_player.toNat) 2
                ≤ (g.current_move + 1 + 1) / 2
              rw [hcounts'.2]
              omega
            · intro hlf
              exact Bool.noConfusion hlf
            · intro _
              right
              refine ⟨g.current_player, ?_, hfromint, rfl, ?_, ?_, ?_⟩
              · cases hcp : g.current_player with
                | none => exact absurd hcp hpne
                | one => exact Or.inl rfl
                | two => exact Or.inr rfl
              · show 7 ≤ g.current_move + 1
                omega
              · refine ⟨d, hd, r, c, ?_⟩
                show fourFrom (updateB g.board row col g.current_player.toNat)
                  g.current_player.toNat r c d.1 d.2
                nth_rewrite 2 [← hwtok]
                exact hff
              · intro q hq hq4
                have hq4' : hasFourP (updateB g.board row col g.current_player.toNat) q := hq4
                exact hq (hfour' q hq4')

/-- Every reachable state satisfies the invariant. -/
theorem Inv_reachable {g : Game} (h : Reachable g) : Inv g := by
  induction h with
  | base => exact Inv_default
  | step c _ ih => exact Inv_step ih c

end Connect4

namespace Connect4

/- ### Reachability of runs, and success-path shape -/

theorem reachable_playSeq {g : Game} (h : Reachable g) (cs : List Nat) :
    Reachable (playSeq g cs) := by
  induction cs generalizing g with
  | nil => exact h
  | cons c cs ih => exact ih (Reachable.step c h)

theorem reachable_runGame (cs : List Nat) : Reachable (runGame cs) :=
  reachable_playSeq Reachable.base cs

/-- The state component of `calculate_winner` only ever sets the
finished flag. -/
theorem calc_winner_state (g : Game) :
    (g.calculate_winner).1 = g ∨ (g.calculate_winner).1 = { g with is_finished := true } := by
  by_cases h7 : g.current_move < 7
  · rw [calc_winner_skip h7]
    exact Or.inl rfl
  · cases hs : scanWinner g.board with
    | some w =>
      rw [calc_winner_found (by omega) hs]
      exact Or.inr rfl
    | none =>
      by_cases h42 : 42 ≤ g.current_move
      · rw [calc_winner_draw (by omega) hs h42]
        exact Or.inr rfl
      · rw [calc_winner_quiet (by omega) hs (by omega)]
        exact Or.inl rfl

/-- A successful call went through the token-placement path; the result
is one of the three success shapes (game continues, finished with the
scanned winner and an untouched player, or finished with winner left
unchanged and the player toggled). -/
theorem play_move_shape {g : Game} {c : Nat} (h : (g.play_move c).2 = Option.none) :
    g.is_finished = false ∧ c < 7 ∧
    ∃ row, findRow g.board c = some row ∧ row < 6 ∧ g.board row c = 0 ∧
      (g.play_move c =
        ({ g with
            board := updateB g.board row c g.current_player.toNat
            current_move := (g.current_move + 1) % 256
            current_player := g.current_player.other }, Option.none) ∨
       g.play_move c =
        ({ g with
            board := updateB g.board row c g.current_player.toNat
            current_move := (g.current_move + 1) % 256
            current_player := g.current_player.other
            is_finished := true }, Option.none) ∨
       ∃ w, Player.from_int w ≠ Player.none ∧
        scanWinner (updateB g.board row c g.current_player.toNat) = some w ∧
        g.play_move c =
        ({ g with
            board := updateB g.board row c g.current_player.toNat
            current_move := (g.current_move + 1) % 256
            is_finished := true
            winner := Player.from_int w }, Option.none)) := by
  by_cases hfin : g.is_finished = true
  · rw [play_move_finished c hfin] at h
    cases h
  · have h1 : g.is_finished = false := by revert hfin; cases g.is_finished <;> simp
    by_cases hcol : 7 ≤ c
    · rw [play_move_invalid h1 hcol] at h
      cases h
    · have h2 : c < 7 := by omega
      cases hfr : findRow g.board c with
      | none =>
        rw [play_move_colfull h1 h2 hfr] at h
        cases h
      | some row =>
        obtain ⟨hrow6, hempty, _⟩ := findRow_some hfr
        refine ⟨h1, h2, row, rfl, hrow6, hempty, ?_⟩
        rw [play_move_success_eq h1 h2 hfr]
        by_cases h7 : (g.afterPlace row c).current_move < 7
        · rw [calc_winner_skip h7]
          left
          rw [if_neg (by simp)]
          rfl
        · cases hs : scanWinner (g.afterPlace row c).board with
          | some w =>
            rw [calc_winner_found (by omega) hs]
            by_cases hw : Player.from_int w = Player.none
            · rw [if_neg (by simpa using hw)]
              right; left
              rfl
            · rw [if_pos (by simpa using hw)]
              right; right
              exact ⟨w, hw, hs, rfl⟩
          | none =>
            by_cases h42 : 42 ≤ (g.afterPlace row c).current_move
            · rw [calc_winner_draw (by omega) hs h42]
              rw [if_neg (by simp)]
              right; left
              rfl
            · rw [calc_winner_quiet (by omega) hs (by omega)]
              rw [if_neg (by simp)]
              left
              rfl

/-- A successful call requires an unfinished game. -/
theorem success_not_finished {g : Game} {c : Nat}
    (h : (g.play_move c).2 = Option.none) : g.is_finished = false :=
  (play_move_shape h).1

end Connect4

namespace Connect4

/- ### Decidability of four-in-a-row, and scan characterizations -/

/-- Bounded reformulation of `hasFourP` (anchors restricted to the
grid), used to decide it. -/
def hasFourB (b : Board) (p : Player) : Prop :=
  ∃ d ∈ directions, ∃ r : Fin 6, ∃ c : Fin 7,
    fourFrom b p.toNat ((r : Nat) : Int) ((c : Nat) : Int) d.1 d.2

instance (b : Board) (p : Player) : Decidable (hasFourB b p) := by
  unfold hasFourB
  infer_instance

theorem hasFourP_iff_B (b : Board) (p : Player) : hasFourP b p ↔ hasFourB b p := by
  constructor
  · rintro ⟨d, hd, r, c, hf⟩
    have h0 := (hf.2 ⟨0, by omega⟩).1
    unfold inB at h0
    simp only [Fin.val_mk, Nat.cast_zero, zero_mul, add_zero] at h0
    refine ⟨d, hd, ⟨r.toNat, by omega⟩, ⟨c.toNat, by omega⟩, ?_⟩
    have hre : ((r.toNat : Nat) : Int) = r := Int.toNat_of_nonneg (by omega)
    have hce : ((c.toNat : Nat) : Int) = c := Int.toNat_of_nonneg (by omega)
    rw [Fin.val_mk, Fin.val_mk, hre, hce]
    exact hf
  · rintro ⟨d, hd, r, c, hf⟩
    exact ⟨d, hd, _, _, hf⟩

instance (b : Board) (p : Player) : Decidable (hasFourP b p) :=
  decidable_of_iff _ (hasFourP_iff_B b p).symm

/-- A value returned by the scan of a board with byte values at most 2
round-trips through `Player::from_int` and owns a four-in-a-row. -/
theorem hasFourP_of_scan_some {b : Board} (hvals : ∀ r c, b r c ≤ 2) {w : Nat}
    (h : scanWinner b = some w) :
    (Player.from_int w).toNat = w ∧ hasFourP b (Player.from_int w) := by
  obtain ⟨hw0, d, hd, r, c, hff⟩ := scanWinner_sound h
  have hw2 : w ≤ 2 := by
    have hc0 := (hff.2 ⟨0, by omega⟩).2
    unfold cellAt at hc0
    rw [← hc0]
    exact hvals _ _
  have hwp : (Player.from_int w).toNat = w := by
    interval_cases w <;> rfl
  exact ⟨hwp, d, hd, r, c, by rw [hwp]; exact hff⟩

/-- If no player owns a four-in-a-row (and values are in range), the
scan finds nothing. -/
theorem scan_none_of_noFour {b : Board} (hvals : ∀ r c, b r c ≤ 2)
    (hnf : ∀ p, ¬ hasFourP b p) : scanWinner b = Option.none := by
  cases hs : scanWinner b with
  | none => rfl
  | some w => exact absurd (hasFourP_of_scan_some hvals hs).2 (hnf _)

/- ### Board monotonicity along runs -/

/-- One call of `play_move` never changes an occupied cell. -/
theorem board_mono_step {g : Game} (c : Nat) {r k : Nat} (h : g.board r k ≠ 0) :
    ((g.play_move c).1).board r k = g.board r k := by
  cases hsucc : (g.play_move c).2 with
  | some e =>
    by_cases hfin : g.is_finished = true
    · rw [play_move_finished c hfin]
    · have h1 : g.is_finished = false := by revert hfin; cases g.is_finished <;> simp
      by_cases hcol : 7 ≤ c
      · rw [play_move_invalid h1 hcol]
      · cases hfr : findRow g.board c with
        | none => rw [play_move_colfull h1 (by omega) hfr]
        | some row =>
          rw [play_move_success_eq h1 (by omega) hfr] at hsucc
          by_cases hw : ((g.afterPlace row c).calculate_winner).2 ≠ Player.none
          · rw [if_pos hw] at hsucc
            cases hsucc
          · rw [if_neg hw] at hsucc
            cases hsucc
  | none =>
    obtain ⟨h1, h2, row, hfr, hrow6, hempty, hshape⟩ := play_move_shape hsucc
    have hne : ¬(r = row ∧ k = c) := by
      rintro ⟨rfl, rfl⟩
      exact h hempty
    rcases hshape with he | he | ⟨w, _, _, he⟩ <;>
      · rw [he]
        exact updateB_other hne

/-- `playSeq` never changes an occupied cell. -/
theorem board_mono_seq {g : Game} (cs : List Nat) {r k : Nat} (h : g.board r k ≠ 0) :
    (playSeq g cs).board r k = g.board r k := by
  induction cs generalizing g with
  | nil => rfl
  | cons c cs ih =>
    show (playSeq ((g.play_move c).1) cs).board r k = g.board r k
    rw [ih (by rw [board_mono_step c h]; exact h), board_mono_step c h]

end Connect4

namespace Connect4

/- ### Remaining support lemmas -/

theorem findRow_eq_none_of_full {b : Board} {col : Nat}
    (h : ∀ r, r < 6 → b r col ≠ 0) : findRow b col = Option.none := by
  cases hfr : findRow b col with
  | none => rfl
  | some row =>
    obtain ⟨hr6, h0, _⟩ := findRow_some hfr
    exact absurd h0 (h row hr6)

theorem play_move_success_snd {g : Game} {col row : Nat} (h1 : g.is_finished = false)
    (h2 : col < 7) (h3 : findRow g.board col = some row) :
    (g.play_move col).2 = Option.none := by
  rw [play_move_success_eq h1 h2 h3]
  by_cases hw : ((g.afterPlace row col).calculate_winner).2 ≠ Player.none
  · rw [if_pos hw]
  · rw [if_neg hw]

/-- The board after a successful move is the old board with the mover's
token written at the found row. -/
theorem play_move_success_board {g : Game} {col row : Nat} (h1 : g.is_finished = false)
    (h2 : col < 7) (h3 : findRow g.board col = some row) :
    ((g.play_move col).1).board = updateB g.board row col g.current_player.toNat := by
  obtain ⟨_, _, row', hfr', _, _, hshape⟩ :=
    play_move_shape (play_move_success_snd h1 h2 h3)
  have hrr : row' = row := by
    rw [h3] at hfr'
    exact (Option.some.inj hfr').symm
  subst hrr
  rcases hshape with he | he | ⟨w, _, _, he⟩ <;> rw [he]

/-- Every state along a successful run is unfinished except possibly
the last one. -/
theorem playsOk_states {g : Game} {cs : List Nat} (h : playsOk g cs = true) :
    ∀ k, k < cs.length → (playSeq g (cs.take k)).is_finished = false := by
  induction cs generalizing g with
  | nil =>
    intro k hk
    simp at hk
  | cons c cs ih =>
    intro k hk
    have h' : (g.play_move c).2 = Option.none ∧ playsOk (g.play_move c).1 cs = true := by
      simpa [playsOk] using h
    cases k with
    | zero => exact success_not_finished h'.1
    | succ k =>
      show (playSeq ((g.play_move c).1) (cs.take k)).is_finished = false
      exact ih h'.2 k (by simpa using hk)

/- ### Concrete runs -/

/-- A seven-move run: player One builds a horizontal four-in-a-row on
the bottom row (columns 0-3) while player Two stacks on top. -/
def winSeq : List Nat := [0, 0, 1, 1, 2, 2, 3]

/-- A forty-two-move run that fills the board with no four-in-a-row for
either player: a draw. -/
def drawSeq : List Nat :=
  [0, 1, 0, 0, 2, 0, 0, 1, 0, 3, 1, 3, 1, 1, 2, 1, 3, 2, 3, 2, 2,
   3, 2, 3, 4, 5, 4, 4, 6, 4, 4, 5, 6, 6, 5, 6, 5, 5, 4, 5, 6, 6]

end Connect4

namespace Connect4

/- ### Claim theorems -/

/-- C3: for every game state whose finished flag is set and every
column index, `play_move` returns the `GameFinished` error and leaves
the board, move count, current player and winner unchanged (the whole
state is returned untouched). -/
theorem C3_theorem : ∀ (g : Game) (col : Nat), g.is_finished = true →
    g.play_move col = (g, some MoveError.GameFinished) :=
  fun _ col h => play_move_finished col h

set_option maxRecDepth 4000 in
/-- C3 witness: calling `play_move` on the finished state reached by
the winning run returns `GameFinished` and the unchanged state. -/
theorem C3_witness :
    (runGame winSeq).play_move 3 = (runGame winSeq, some MoveError.GameFinished) :=
  C3_theorem (runGame winSeq) 3 (by decide)

/-- C7: on an unfinished state, every column index outside `[0, 7)`
(arbitrarily large included) yields the `InvalidColumn` error with the
state unchanged; the embedding is a total function, so no panic or
abort is possible. -/
theorem C7_theorem : ∀ (g : Game) (col : Nat), g.is_finished = false → 7 ≤ col →
    g.play_move col = (g, some MoveError.InvalidColumn) :=
  fun _ _ h1 h2 => play_move_invalid h1 h2

/-- C7 witness: column 100 on the initial state. -/
theorem C7_witness :
    Game.default.play_move 100 = (Game.default, some MoveError.InvalidColumn) :=
  C7_theorem Game.default 100 rfl (by decide)

/-- C9: a successful move after which the game is not finished toggles
the current player: One becomes Two and Two becomes One. -/
theorem C9_theorem : ∀ (g : Game) (col : Nat),
    (g.play_move col).2 = Option.none → ((g.play_move col).1).is_finished = false →
    (g.current_player = Player.one → ((g.play_move col).1).current_player = Player.two) ∧
    (g.current_player = Player.two → ((g.play_move col).1).current_player = Player.one) := by
  intro g col hs hnf
  obtain ⟨h1, h2, row, hfr, hrow6, hempty, hshape⟩ := play_move_shape hs
  rcases hshape with he | he | ⟨w, hw, hsw, he⟩
  · constructor
    · intro hp
      rw [he]
      show g.current_player.other = Player.two
      rw [hp]
      rfl
    · intro hp
      rw [he]
      show g.current_player.other = Player.one
      rw [hp]
      rfl
  · rw [he] at hnf
    exact Bool.noConfusion hnf
  · rw [he] at hnf
    exact Bool.noConfusion hnf

/-- C9 witness: the first move of a fresh game toggles One to Two. -/
theorem C9_witness :
    (Game.default.current_player = Player.one →
      ((Game.default.play_move 3).1).current_player = Player.two) ∧
    (Game.default.current_player = Player.two →
      ((Game.default.play_move 3).1).current_player = Player.one) :=
  C9_theorem Game.default 3 (by decide) (by decide)

end Connect4

namespace Connect4

/-- C4: (a) a successful drop on an unfinished state with a valid,
non-full column lands in the lowest empty row of that column — the
found row is empty, every row below it is occupied, the mover's token
is written there and no other cell changes; (b) a full column yields
`ColumnFull` with the state unchanged; (c) concretely, six drops into
column 0 of a fresh game succeed and fill exactly that column, and the
seventh attempt fails with `ColumnFull` without changing the state. -/
theorem C4_theorem :
    (∀ (g : Game) (col row : Nat), g.is_finished = false → col < 7 →
      findRow g.board col = some row →
      row < 6 ∧ g.board row col = 0 ∧ (∀ r', row < r' → r' < 6 → g.board r' col ≠ 0) ∧
      (g.play_move col).2 = Option.none ∧
      ((g.play_move col).1).board row col = g.current_player.toNat ∧
      (∀ r k, ¬(r = row ∧ k = col) → ((g.play_move col).1).board r k = g.board r k)) ∧
    (∀ (g : Game) (col : Nat), g.is_finished = false → col < 7 →
      (∀ r, r < 6 → g.board r col ≠ 0) →
      g.play_move col = (g, some MoveError.ColumnFull)) ∧
    (playsOk Game.default [0, 0, 0, 0, 0, 0] = true ∧
      (∀ r : Fin 6, (runGame [0, 0, 0, 0, 0, 0]).board r.val 0 ≠ 0) ∧
      (∀ r : Fin 6, ∀ k : Fin 7, k.val ≠ 0 →
        (runGame [0, 0, 0, 0, 0, 0]).board r.val k.val = 0) ∧
      (runGame [0, 0, 0, 0, 0, 0]).play_move 0
        = (runGame [0, 0, 0, 0, 0, 0], some MoveError.ColumnFull)) := by
  refine ⟨?_, ?_, ?_⟩
  · intro g col row h1 h2 h3
    obtain ⟨hrow6, hempty, hbelow⟩ := findRow_some h3
    have hb := play_move_success_board h1 h2 h3
    refine ⟨hrow6, hempty, hbelow, play_move_success_snd h1 h2 h3, ?_, ?_⟩
    · rw [hb]
      exact updateB_self
    · intro r k hne
      rw [hb]
      exact updateB_other hne
  · intro g col h1 h2 h3
    exact play_move_colfull h1 h2 (findRow_eq_none_of_full h3)
  · refine ⟨by decide, by decide, by decide, ?_⟩
    refine play_move_colfull (by decide) (by omega) (findRow_eq_none_of_full ?_)
    intro r hr
    exact (by decide :
      ∀ r : Fin 6, (runGame [0, 0, 0, 0, 0, 0]).board r.val 0 ≠ 0) ⟨r, hr⟩

/-- C4 witness: the first drop into column 3 of a fresh game lands at
the bottom row 5; a filled column rejects the next drop. -/
theorem C4_witness :
    (5 < 6 ∧ Game.default.board 5 3 = 0 ∧
      (∀ r', 5 < r' → r' < 6 → Game.default.board r' 3 ≠ 0) ∧
      (Game.default.play_move 3).2 = Option.none ∧
      ((Game.default.play_move 3).1).board 5 3 = Game.default.current_player.toNat ∧
      (∀ r k, ¬(r = 5 ∧ k = 3) →
        ((Game.default.play_move 3).1).board r k = Game.default.board r k)) ∧
    (runGame [0, 0, 0, 0, 0, 0]).play_move 0
      = (runGame [0, 0, 0, 0, 0, 0], some MoveError.ColumnFull) :=
  ⟨C4_theorem.1 Game.default 3 5 rfl (by decide) (by decide),
   C4_theorem.2.1 (runGame [0, 0, 0, 0, 0, 0]) 0 (by decide) (by decide)
     (fun r hr => (by decide :
       ∀ r : Fin 6, (runGame [0, 0, 0, 0, 0, 0]).board r.val 0 ≠ 0) ⟨r, hr⟩)⟩

/-- C5: in every reachable state, the columns are gravity-packed (a
nonempty cell has every cell below it nonempty), and a nonempty cell
keeps its value (same owner) across any further sequence of
`play_move` calls. -/
theorem C5_theorem : ∀ g : Game, Reachable g →
    (∀ r r' c, r ≤ r' → r' < 6 → g.board r c ≠ 0 → g.board r' c ≠ 0) ∧
    (∀ cs r c, g.board r c ≠ 0 → (playSeq g cs).board r c = g.board r c) :=
  fun _ hg => ⟨(Inv_reachable hg).grav, fun cs _ _ h => board_mono_seq cs h⟩

set_option maxRecDepth 4000 in
/-- C5 witness: the invariants instantiated at the finished winning
run. -/
theorem C5_witness :
    (∀ r r' c, r ≤ r' → r' < 6 → (runGame winSeq).board r c ≠ 0 →
      (runGame winSeq).board r' c ≠ 0) ∧
    (∀ cs r c, (runGame winSeq).board r c ≠ 0 →
      (playSeq (runGame winSeq) cs).board r c = (runGame winSeq).board r c) :=
  C5_theorem (runGame winSeq) (reachable_runGame winSeq)

/-- C10: in every reachable state the move counter equals the number of
occupied cells and is at most 42 (so the `u8` counter never wraps); a
successful move increments the counter by exactly one and changes
exactly one cell, from empty to the mover's nonzero token. -/
theorem C10_theorem : ∀ g : Game, Reachable g →
    (tokenCount g.board = g.current_move ∧ g.current_move ≤ 42) ∧
    (∀ col, (g.play_move col).2 = Option.none →
      ((g.play_move col).1).current_move = g.current_move + 1 ∧
      ∃ row, row < 6 ∧ col < 7 ∧ g.board row col = 0 ∧
        g.current_player.toNat ≠ 0 ∧
        ((g.play_move col).1).board row col = g.current_player.toNat ∧
        (∀ r k, ¬(r = row ∧ k = col) → ((g.play_move col).1).board r k = g.board r k) ∧
        tokenCount ((g.play_move col).1).board = g.current_move + 1) := by
  intro g hg
  have hInv := Inv_reachable hg
  refine ⟨⟨hInv.tcount, hInv.le42⟩, ?_⟩
  intro col hs
  obtain ⟨h1, h2, row, hfr, hrow6, hempty, hshape⟩ := play_move_shape hs
  obtain ⟨_, _, _, _, _, hm42, _⟩ := hInv.live h1
  have hpne : g.current_player ≠ Player.none := by
    obtain ⟨_, _, hpl1, hpl2, _, _, _⟩ := hInv.live h1
    intro he
    rcases Nat.mod_two_eq_zero_or_one g.current_move with hp | hp
    · have h := hpl1.mpr hp
      rw [he] at h
      cases h
    · have h := hpl2.mpr hp
      rw [he] at h
      cases h
  have hmod : (g.current_move + 1) % 256 = g.current_move + 1 :=
    Nat.mod_eq_of_lt (by omega)
  have hb := play_move_success_board h1 h2 hfr
  constructor
  · rcases hshape with he | he | ⟨w, _, _, he⟩ <;>
      · rw [he]
        exact hmod
  · refine ⟨row, hrow6, h2, hempty, Player.toNat_ne_zero hpne, ?_, ?_, ?_⟩
    · rw [hb]
      exact updateB_self
    · intro r k hne
      rw [hb]
      exact updateB_other hne
    · rw [hb, tokenCount_update hrow6 h2 hempty (Player.toNat_ne_zero hpne), hInv.tcount]

/-- C10 witness: the counter facts instantiated at the initial state. -/
theorem C10_witness :
    (tokenCount Game.default.board = Game.default.current_move ∧
      Game.default.current_move ≤ 42) ∧
    (∀ col, (Game.default.play_move col).2 = Option.none →
      ((Game.default.play_move col).1).current_move = Game.default.current_move + 1 ∧
      ∃ row, row < 6 ∧ col < 7 ∧ Game.default.board row col = 0 ∧
        Game.default.current_player.toNat ≠ 0 ∧
        ((Game.default.play_move col).1).board row col
          = Game.default.current_player.toNat ∧
        (∀ r k, ¬(r = row ∧ k = col) →
          ((Game.default.play_move col).1).board r k = Game.default.board r k) ∧
        tokenCount ((Game.default.play_move col).1).board
          = Game.default.current_move + 1) :=
  C10_theorem Game.default Reachable.base

end Connect4

namespace Connect4

/-- C2: on every reachable state, the win detection returns player `p`
(a real player, not the no-player value) exactly when `p` owns four
contiguous cells along one of the four scanned directions — the single
positive-direction walk from every occupied cell finds every run. -/
theorem C2_theorem : ∀ g : Game, Reachable g → ∀ p : Player,
    ((g.calculate_winner).2 = p ∧ p ≠ Player.none) ↔ hasFourP g.board p := by
  intro g hg p
  have hInv := Inv_reachable hg
  constructor
  · rintro ⟨hc, hp⟩
    by_cases h7 : g.current_move < 7
    · rw [calc_winner_skip h7] at hc
      have hne : Player.none = p := hc
      exact absurd hne.symm hp
    · cases hs : scanWinner g.board with
      | some w =>
        rw [calc_winner_found (by omega) hs] at hc
        have hc' : Player.from_int w = p := hc
        obtain ⟨_, h4⟩ := hasFourP_of_scan_some hInv.vals hs
        rw [← hc']
        exact h4
      | none =>
        by_cases h42 : 42 ≤ g.current_move
        · rw [calc_winner_draw (by omega) hs h42] at hc
          have hne : Player.none = p := hc
          exact absurd hne.symm hp
        · rw [calc_winner_quiet (by omega) hs (by omega)] at hc
          have hne : Player.none = p := hc
          exact absurd hne.symm hp
  · intro h4
    have hp : p ≠ Player.none := by
      rintro rfl
      exact noFour_none _ h4
    refine ⟨?_, hp⟩
    have hcnt := hasFourP_le_count h4
    have h7 : 7 ≤ g.current_move := by
      have hle : countOf g.board p.toNat ≤ (g.current_move + 1) / 2 := by
        cases p with
        | none => exact absurd rfl hp
        | one => exact hInv.cnt1
        | two => exact hInv.cnt2
      omega
    cases hfin : g.is_finished with
    | false =>
      obtain ⟨_, _, _, _, _, _, hnf⟩ := hInv.live hfin
      exact absurd h4 (hnf p)
    | true =>
      rcases hInv.fin hfin with ⟨_, _, hnf⟩ | ⟨p0, _, _, _, _, h40, huniq⟩
      · exact absurd h4 (hnf p)
      · have hpp0 : p = p0 := by
          by_contra hne
          exact huniq p hne h4
        subst hpp0
        cases hs : scanWinner g.board with
        | none => exact absurd h4 (noFour_of_scan_none hs p)
        | some w =>
          obtain ⟨_, h4w⟩ := hasFourP_of_scan_some hInv.vals hs
          have hfw : Player.from_int w = p := by
            by_contra hne
            exact huniq _ hne h4w
          rw [calc_winner_found h7 hs]
          exact hfw

set_option maxRecDepth 4000 in
/-- C2 witness: after the winning run, the detection returns player One
iff One owns a four-in-a-row (it does). -/
theorem C2_witness :
    (((runGame winSeq).calculate_winner).2 = Player.one ∧ Player.one ≠ Player.none) ↔
      hasFourP (runGame winSeq).board Player.one :=
  C2_theorem (runGame winSeq) (reachable_runGame winSeq) Player.one

/-- `calculate_winner` with the short-circuit (skip the scan while
fewer than `BOARD_WIDTH` tokens have been placed) removed, the variant
the spec declares equivalent on all reachable states. -/
def Game.calculate_winner_noskip (g : Game) : Game × Player :=
  match scanWinner g.board with
  | some cell => ({ g with is_finished := true }, Player.from_int cell)
  | none =>
    if 42 ≤ g.current_move then ({ g with is_finished := true }, Player.none)
    else (g, Player.none)

/-- C8: on every reachable state, the win detection with the
move-count short-circuit agrees (state and value) with the detection
without it; in particular no reachable board with fewer than 7 tokens
holds a four-in-a-row. -/
theorem C8_theorem : ∀ g : Game, Reachable g →
    g.calculate_winner = g.calculate_winner_noskip ∧
    (g.current_move < 7 → ∀ p, ¬ hasFourP g.board p) := by
  intro g hg
  have hInv := Inv_reachable hg
  have hnf7 : g.current_move < 7 → ∀ p, ¬ hasFourP g.board p := by
    intro h7 p
    cases p with
    | none => exact noFour_none _
    | one =>
      refine noFour_of_counts ?_
      show countOf g.board 1 ≤ 3
      have := hInv.cnt1
      omega
    | two =>
      refine noFour_of_counts ?_
      show countOf g.board 2 ≤ 3
      have := hInv.cnt2
      omega
  refine ⟨?_, hnf7⟩
  by_cases h7 : g.current_move < 7
  · have hs : scanWinner g.board = Option.none := scan_none_of_noFour hInv.vals (hnf7 h7)
    rw [calc_winner_skip h7]
    unfold Game.calculate_winner_noskip
    rw [hs]
    rw [if_neg (by omega)]
  · unfold Game.calculate_winner Game.calculate_winner_noskip
    rw [if_neg h7]

/-- C8 witness: the two detections agree on the initial state (where
the short-circuit fires). -/
theorem C8_witness :
    Game.default.calculate_winner = Game.default.calculate_winner_noskip ∧
    (Game.default.current_move < 7 → ∀ p, ¬ hasFourP Game.default.board p) :=
  C8_theorem Game.default Reachable.base

end Connect4

namespace Connect4

/-- C6: a run of successful moves from the initial state that fills all
42 cells with no four-in-a-row in the final board ends finished with
winner = no-player (a draw), and no proper prefix of the run is
finished (cells only get added, so no intermediate board has a
four-in-a-row either). -/
theorem C6_theorem : ∀ cs : List Nat, playsOk Game.default cs = true →
    (runGame cs).current_move = 42 →
    (∀ p, ¬ hasFourP (runGame cs).board p) →
    (runGame cs).is_finished = true ∧ (runGame cs).winner = Player.none ∧
    ∀ k, k < cs.length → (runGame (cs.take k)).is_finished = false := by
  intro cs hok hm hnf
  have hInv := Inv_reachable (reachable_runGame cs)
  have hfin : (runGame cs).is_finished = true := by
    cases hf : (runGame cs).is_finished with
    | true => rfl
    | false =>
      obtain ⟨_, _, _, _, _, hlt, _⟩ := hInv.live hf
      omega
  refine ⟨hfin, ?_, playsOk_states hok⟩
  rcases hInv.fin hfin with ⟨hw, _, _⟩ | ⟨p0, _, _, _, _, h40, _⟩
  · exact hw
  · exact absurd h40 (hnf p0)

set_option maxRecDepth 20000 in
/-- C6 witness: the concrete 42-move draw run: it succeeds move by
move, fills the board, has no four-in-a-row, ends as a finished draw,
and no earlier state is finished. -/
theorem C6_witness :
    (runGame drawSeq).is_finished = true ∧ (runGame drawSeq).winner = Player.none ∧
    ∀ k, k < drawSeq.length → (runGame (drawSeq.take k)).is_finished = false :=
  C6_theorem drawSeq (by decide) (by decide) (by intro p; cases p <;> decide)

set_option maxRecDepth 20000 in
/-- C1 counterexample: the 42nd move of the draw run succeeds and makes
the game terminal (board full, no winner), yet the current player
changes from Two to One — refuting the claim that a terminal move
leaves the current player unchanged. -/
theorem C1_counterexample :
    ((runGame (drawSeq.take 41)).play_move 6).2 = Option.none ∧
    (((runGame (drawSeq.take 41)).play_move 6).1).is_finished = true ∧
    (((runGame (drawSeq.take 41)).play_move 6).1).winner = Player.none ∧
    (runGame (drawSeq.take 41)).current_player = Player.two ∧
    (((runGame (drawSeq.take 41)).play_move 6).1).current_player = Player.one := by
  decide

/-- C1 (amended): a successful terminal move leaves the current player
unchanged when it is a win (winner set to a real player), and toggles
the current player when it is a draw (winner left at no-player). -/
theorem C1_theorem : ∀ (g : Game) (col : Nat), Reachable g →
    (g.play_move col).2 = Option.none → ((g.play_move col).1).is_finished = true →
    (((g.play_move col).1).winner ≠ Player.none →
      ((g.play_move col).1).current_player = g.current_player) ∧
    (((g.play_move col).1).winner = Player.none →
      ((g.play_move col).1).current_player = g.current_player.other) := by
  intro g col hg hs hf
  obtain ⟨h1, h2, row, hfr, hrow6, hempty, hshape⟩ := play_move_shape hs
  have hwin : g.winner = Player.none := ((Inv_reachable hg).live h1).2.2.2.2.1
  rcases hshape with he | he | ⟨w, hw, hsw, he⟩
  · rw [he] at hf
    have hgt : g.is_finished = true := hf
    rw [h1] at hgt
    exact Bool.noConfusion hgt
  · constructor
    · intro hwne
      rw [he] at hwne
      have hne : g.winner ≠ Player.none := hwne
      exact absurd hwin hne
    · intro _
      rw [he]
  · constructor
    · intro _
      rw [he]
    · intro hwe
      rw [he] at hwe
      have hne : Player.from_int w = Player.none := hwe
      exact absurd hne hw

set_option maxRecDepth 20000 in
/-- C1 witness (for the amended claim): instantiated at the state one
move before the draw completes; the terminal draw move toggles the
player. -/
theorem C1_witness :
    ((((runGame (drawSeq.take 41)).play_move 6).1).winner ≠ Player.none →
      (((runGame (drawSeq.take 41)).play_move 6).1).current_player
        = (runGame (drawSeq.take 41)).current_player) ∧
    ((((runGame (drawSeq.take 41)).play_move 6).1).winner = Player.none →
      (((runGame (drawSeq.take 41)).play_move 6).1).current_player
        = (runGame (drawSeq.take 41)).current_player.other) :=
  C1_theorem (runGame (drawSeq.take 41)) 6 (reachable_runGame (drawSeq.take 41))
    (by decide) (by decide)

end Connect4
